import Mathlib

/-!
Shallow embedding of `kcbs_browser_scraper.py` (repository BBQCheck).

The Python program fetches a JSON (possibly JSONP-wrapped) payload of event
records, extracts six fields per record from an HTML fragment using fixed
regular expressions, and writes one pipe-delimited line per named event.

Decoded JSON values are modelled by the inductive type `Json` (Python's
`None`/`bool`/`int`/`str`/`list`/insertion-ordered `dict`).  Each regular
expression of the source is embedded as a dedicated matcher over `List Char`
that reproduces the leftmost-search and greedy/backtracking behaviour of
`re.search` for that concrete pattern.  Exceptions that escape the per-record
handler are modelled with `Except`; exceptions caught by the per-record
handler make the record contribute nothing, exactly as in the source.
-/

set_option maxHeartbeats 1000000

namespace KCBS

/-- Characters of a string literal. -/
def chars (s : String) : List Char := s.data

def ltC : Char := '<'

def gtC : Char := '>'

/-- The double-quote character. -/
def dqC : Char := Char.ofNat 34

/-- The single-quote character. -/
def sqC : Char := Char.ofNat 39

/-- The opening-brace character. -/
def lbC : Char := Char.ofNat 123

/-- The closing-brace character. -/
def rbC : Char := Char.ofNat 125

/-- ASCII whitespace, the range of Python regex `\s` and `str.strip` exercised
by this repository's data (Unicode-only whitespace is not modelled). -/
def isPySpace (c : Char) : Bool :=
  c == ' ' || c == '\t' || c == '\n' || c == '\r' || c == '\x0b' || c == '\x0c'

/-- Decoded JSON values as produced by `json.loads`: Python `None`, `bool`,
`int`, `str`, `list` and insertion-ordered `dict` (JSON numbers appearing in
this API are integers). -/
inductive Json where
  | null
  | bool (b : Bool)
  | num (n : Int)
  | str (s : String)
  | arr (elems : List Json)
  | obj (entries : List (String × Json))

/-- Python truthiness of a decoded JSON value (`if x:`). -/
def truthy : Json → Bool
  | .null => false
  | .bool b => b
  | .num n => n != 0
  | .str s => s != ""
  | .arr xs => !xs.isEmpty
  | .obj kvs => !kvs.isEmpty

/-- Dictionary lookup (`d[k]` / `k in d`); `json.loads` never produces
duplicate keys, so first match is the dictionary's single binding. -/
def lookupJ (k : String) : List (String × Json) → Option Json
  | [] => none
  | (k2, v) :: rest => if k2 = k then some v else lookupJ k rest

/-- Python `dict.get(k, dflt)`. -/
def jgetD (entries : List (String × Json)) (k : String) (dflt : Json) : Json :=
  (lookupJ k entries).getD dflt

/-- Python `dict.get(k)` (default `None`). -/
def jget (entries : List (String × Json)) (k : String) : Json :=
  jgetD entries k Json.null

/-- Python `a or b` on decoded values. -/
def pyOr (a b : Json) : Json := if truthy a then a else b

def natDigitsAux : Nat → Nat → List Char
  | 0, _ => []
  | fuel + 1, n =>
    if n < 10 then [Nat.digitChar n]
    else natDigitsAux fuel (n / 10) ++ [Nat.digitChar (n % 10)]

/-- Decimal rendering of a natural number. -/
def natStr (n : Nat) : String := String.mk (natDigitsAux (n + 1) n)

/-- Python `str()` of an int. -/
def intStr : Int → String
  | .ofNat n => natStr n
  | .negSucc n => "-" ++ natStr (n + 1)

/-- Python `repr` of a decoded string: quote choice and the common escapes.
(The `\xNN` escapes of unprintable characters are not modelled; no claim
touches them.) -/
def pyEscChar (q : Char) (c : Char) : String :=
  if c = '\\' then "\\\\"
  else if c = q then "\\" ++ String.singleton q
  else if c = '\n' then "\\n"
  else if c = '\r' then "\\r"
  else if c = '\t' then "\\t"
  else String.singleton c

def joinStr : List String → String
  | [] => ""
  | s :: rest => s ++ joinStr rest

def strRepr (s : String) : String :=
  let q := if s.data.any (· == sqC) && !(s.data.any (· == dqC)) then dqC else sqC
  String.singleton q ++ joinStr (s.data.map (pyEscChar q)) ++ String.singleton q

mutual

/-- Python `repr` of a decoded JSON value (used by `str` inside containers):
`None`/`True`/`False`, decimal ints, quoted strings, and comma-separated
brackets for containers. -/
def pyRepr : Json → String
  | .null => "None"
  | .bool true => "True"
  | .bool false => "False"
  | .num n => intStr n
  | .str s => strRepr s
  | .arr xs => "[" ++ pyReprList xs ++ "]"
  | .obj kvs => String.singleton lbC ++ pyReprEntries kvs ++ String.singleton rbC

def pyReprList : List Json → String
  | [] => ""
  | [x] => pyRepr x
  | x :: y :: rest => pyRepr x ++ ", " ++ pyReprList (y :: rest)

def pyReprEntries : List (String × Json) → String
  | [] => ""
  | [(k, v)] => strRepr k ++ ": " ++ pyRepr v
  | (k, v) :: e :: rest => strRepr k ++ ": " ++ pyRepr v ++ ", " ++ pyReprEntries (e :: rest)

end

/-- Python `str()` of a decoded JSON value, as used by f-string interpolation. -/
def pyStr : Json → String
  | .str s => s
  | j => pyRepr j

/-- Python `str.strip()` over the modelled whitespace range. -/
def pyStrip (l : List Char) : String :=
  String.mk (((l.dropWhile isPySpace).reverse.dropWhile isPySpace).reverse)

/-- Remove `p` from the front of `s`; `some` of the remainder exactly when `p`
is a prefix of `s`. -/
def dropPre : List Char → List Char → Option (List Char)
  | [], s => some s
  | _ :: _, [] => none
  | p :: ps, c :: cs => if c = p then dropPre ps cs else none

/-- Python `str.startswith`. -/
def strStarts (p s : String) : Bool := (dropPre p.data s.data).isSome

/-- Leftmost search: try the matcher at every start position, left to right,
exactly as `re.search` tries positions. -/
def searchAux {α : Type} (m : List Char → Option α) : List Char → Option α
  | [] => m []
  | c :: cs =>
    match m (c :: cs) with
    | some r => some r
    | none => searchAux m cs

/-- Matcher for `<b>([^<]+)</b>` / `<i>([^<]+)</i>` at one position: the open
tag, a nonempty run of non-`<` characters (the capture), then the close tag.
The greedy `[^<]+` cannot backtrack usefully, so the run is maximal. -/
def matchTagB (opn cls : List Char) (s : List Char) : Option (List Char) :=
  match dropPre opn s with
  | none => none
  | some r1 =>
    let body := r1.takeWhile (· != ltC)
    if body.isEmpty then none
    else
      match dropPre cls (r1.dropWhile (· != ltC)) with
      | some _ => some body
      | none => none

def searchTag (opn cls : List Char) (s : List Char) : Option (List Char) :=
  searchAux (matchTagB opn cls) s

/-- Matcher for `DIST:\s*(\d+)\s*mi` at one position (all stars are
effectively maximal-munch for this pattern). -/
def matchDist (s : List Char) : Option (List Char) :=
  match dropPre (chars "DIST:") s with
  | none => none
  | some r1 =>
    let r2 := r1.dropWhile isPySpace
    let ds := r2.takeWhile Char.isDigit
    if ds.isEmpty then none
    else
      match dropPre (chars "mi") ((r2.dropWhile Char.isDigit).dropWhile isPySpace) with
      | some _ => some ds
      | none => none

/-- Matcher for `</a>([^<]+)<br[^>]*>UNITED STATES` at one position. -/
def matchLoc1 (s : List Char) : Option (List Char) :=
  match dropPre (chars "</a>") s with
  | none => none
  | some r1 =>
    let body := r1.takeWhile (· != ltC)
    if body.isEmpty then none
    else
      match dropPre (chars "<br") (r1.dropWhile (· != ltC)) with
      | none => none
      | some r3 =>
        match r3.dropWhile (· != gtC) with
        | [] => none
        | _ :: r5 =>
          match dropPre (chars "UNITED STATES") r5 with
          | some _ => some body
          | none => none

/-- Character class `[A-Za-z\s,]` of the fallback location pattern. -/
def loc2Cls (c : Char) : Bool := c.isAlpha || isPySpace c || c == ','

/-- After the backtracked `[A-Za-z\s,]+` stops, the rest of the fallback
pattern `[A-Z]{2}\s*\d*<br` is deterministic: two uppercase letters, maximal
whitespace, maximal digits, then the literal `<br`. -/
def loc2Check (rest : List Char) : Bool :=
  match rest with
  | c1 :: c2 :: rr =>
    c1.isUpper && c2.isUpper &&
      (dropPre (chars "<br") ((rr.dropWhile isPySpace).dropWhile Char.isDigit)).isSome
  | _ => false

/-- The part of the capture group contributed after `[A-Za-z\s,]+`. -/
def loc2Cap (rest : List Char) : List Char :=
  match rest with
  | c1 :: c2 :: rr =>
    c1 :: c2 :: (rr.takeWhile isPySpace ++ (rr.dropWhile isPySpace).takeWhile Char.isDigit)
  | l => l

/-- Backtracking of the greedy `[A-Za-z\s,]+`: try the longest admissible run
first, then shorter ones, never empty. -/
def loc2Try (r : List Char) : Nat → Option (List Char)
  | 0 => none
  | k + 1 =>
    if loc2Check (r.drop (k + 1)) then some (r.take (k + 1) ++ loc2Cap (r.drop (k + 1)))
    else loc2Try r k

/-- Matcher for the fallback pattern `</a>([A-Za-z\s,]+[A-Z]{2}\s*\d*)<br`
at one position. -/
def matchLoc2 (s : List Char) : Option (List Char) :=
  match dropPre (chars "</a>") s with
  | none => none
  | some r => loc2Try r (r.takeWhile loc2Cls).length

/-- Matcher for `Reps?:\s*([^<]+)` at one position: the optional `s` is tried
greedily, so `Reps:` is attempted before `Rep:`. -/
def matchRep (s : List Char) : Option (List Char) :=
  let cont := fun (r : List Char) =>
    let body := (r.dropWhile isPySpace).takeWhile (· != ltC)
    if body.isEmpty then none else some body
  match dropPre (chars "Reps:") s with
  | some r => cont r
  | none =>
    match dropPre (chars "Rep:") s with
    | some r => cont r
    | none => none

def quoteC (c : Char) : Bool := c == dqC || c == sqC

/-- Matcher for `viewEvent\((\d+)\)` at one position; also returns the rest of
the input after the closing parenthesis. -/
def matchViewEvR (s : List Char) : Option (List Char × List Char) :=
  match dropPre (chars "viewEvent(") s with
  | none => none
  | some r =>
    let ds := r.takeWhile Char.isDigit
    if ds.isEmpty then none
    else
      match r.dropWhile Char.isDigit with
      | c :: rest => if c = ')' then some (ds, rest) else none
      | [] => none

def matchViewEv (s : List Char) : Option (List Char) :=
  (matchViewEvR s).map (·.1)

/-- Matcher for `onclick=["\x27]viewEvent\((\d+)\)["\x27]` at one position.
Both quote classes of the source (its "pattern 1" and "pattern 2" are the same
regular expression) accept either quote character on either side. -/
def matchOnclick (s : List Char) : Option (List Char) :=
  match dropPre (chars "onclick=") s with
  | none => none
  | some r =>
    match r with
    | q :: r2 =>
      if quoteC q then
        match matchViewEvR r2 with
        | some (ds, rest) =>
          match rest with
          | q2 :: _ => if quoteC q2 then some ds else none
          | [] => none
        | none => none
      else none
    | [] => none

/-- Remainder just after the first occurrence of `pat` in `s`. -/
def findSub (pat : List Char) (s : List Char) : Option (List Char) :=
  searchAux (dropPre pat) s

/-- Matcher for `evid=` immediately followed by a digit. -/
def matchEvid (s : List Char) : Option Unit :=
  match dropPre (chars "evid=") s with
  | none => none
  | some r =>
    match r with
    | c :: _ => if c.isDigit then some () else none
    | [] => none

/-- Acceptance condition of the inner part of
`href=["\x27]([^"\x27]*evr[^"\x27]*evid=(\d+)[^"\x27]*)["\x27]`: the quote-free
body must contain `evr` and, after it, `evid=` followed by a digit.  The
backtracking greedy stars make the capture the whole quote-to-quote body
whenever this condition holds. -/
def hrefBody (body : List Char) : Bool :=
  match findSub (chars "evr") body with
  | none => false
  | some rem => (searchAux matchEvid rem).isSome

/-- Matcher for the href pattern at one position. -/
def matchHref (s : List Char) : Option (List Char) :=
  match dropPre (chars "href=") s with
  | none => none
  | some r =>
    match r with
    | q :: r2 =>
      if quoteC q then
        let body := r2.takeWhile (fun c => !quoteC c)
        match r2.dropWhile (fun c => !quoteC c) with
        | _ :: _ => if hrefBody body then some body else none
        | [] => none
      else none
    | [] => none

/-! Field extraction, one definition per field of `parse_events`
(`src/kcbs_browser_scraper.py` lines 143-196). -/

/-- Lines 146-148: name from the first `<b>...</b>` span, else the `name`
field (kept as a decoded value: the fallback is neither stripped nor
stringified before the truthiness test). -/
def extract_name (name : Json) (hc : List Char) : Json :=
  match searchTag (chars "<b>") (chars "</b>") hc with
  | some b => Json.str (pyStrip b)
  | none => name

/-- Lines 151-152. -/
def extract_distance (hc : List Char) : String :=
  match searchAux matchDist hc with
  | some ds => String.mk ds ++ " mi"
  | none => ""

/-- Lines 155-156. -/
def extract_dates (hc : List Char) : String :=
  match searchTag (chars "<i>") (chars "</i>") hc with
  | some b => pyStrip b
  | none => ""

/-- Lines 161-165. -/
def extract_location (hc : List Char) : String :=
  match searchAux matchLoc1 hc with
  | some t => pyStrip t
  | none =>
    match searchAux matchLoc2 hc with
    | some t => pyStrip t
    | none => ""

/-- Lines 168-169. -/
def extract_rep (hc : List Char) : String :=
  match searchAux matchRep hc with
  | some b => pyStrip b
  | none => ""

def urlTemplate : String :=
  "https://mms.kcbs.us/members/evr/reg_event_kcba.php?orgcode=KCBA&evid="

def kcbsHost : String := "https://mms.kcbs.us"

/-- Lines 195-196: absolute-URL normalisation of a matched href. -/
def normHref (u : String) : String :=
  if strStarts "http" u then u
  else if strStarts "/" u then kcbsHost ++ u
  else kcbsHost ++ "/" ++ u

/-- Line 144: `event.get('id') or props.get('id') or props.get('evid') or
props.get('event_id')`. -/
def idChain (event : List (String × Json)) (props : List (String × Json)) : Json :=
  pyOr (jget event "id") (pyOr (jget props "id") (pyOr (jget props "evid") (jget props "event_id")))

/-- Lines 172-196: the detail URL.  The source's "pattern 1" and "pattern 2"
are the same regular expression (both character classes contain both quote
characters), so the second search can never succeed where the first failed and
is embedded as the single `matchOnclick` search. -/
def extract_event_url (event_id : Json) (hc : List Char) : String :=
  if truthy event_id then urlTemplate ++ pyStr event_id
  else
    match searchAux matchOnclick hc with
    | some ds => urlTemplate ++ String.mk ds
    | none =>
      match searchAux matchViewEv hc with
      | some ds => urlTemplate ++ String.mk ds
      | none =>
        match searchAux matchHref hc with
        | some body => normHref (String.mk body)
        | none => ""

/-- Lines 135-206, one record of the loop.  `none` means the record
contributes no output line: either it lacks a `properties` mapping, or its
derived name is falsy, or processing raised (`properties` not a mapping makes
`props.get` raise; a non-string `html_content` makes the first `re.search`
raise) and the record-level handler caught the exception and skipped it. -/
def processRecord (event : Json) : Option String :=
  match event with
  | .obj kvs =>
    match lookupJ "properties" kvs with
    | some (.obj props) =>
      (match jgetD props "html_content" (Json.str "") with
      | .str h =>
        let hc := h.data
        let event_name := extract_name (jgetD props "name" (Json.str "")) hc
        if truthy event_name then
          some (pyStr event_name ++ "|" ++ extract_distance hc ++ "|" ++ extract_dates hc ++
            "|" ++ extract_location hc ++ "|" ++ extract_rep hc ++ "|" ++
            extract_event_url (idChain kvs props) hc)
        else none
      | _ => none)
    | some _ => none
    | none => none
  | _ => none

/-- The first dictionary value that is a list (lines 126-129). -/
def firstListVal : List (String × Json) → Option Json
  | [] => none
  | (_, v) :: rest =>
    match v with
    | .arr xs => some (.arr xs)
    | _ => firstListVal rest

/-- Lines 114-131: record-list discovery.  A root that is neither a mapping
nor a list, and a mapping with no matching key and no list value, leave the
initial `events = []`. -/
def selectEvents : Json → Json
  | .obj kvs =>
    (match lookupJ "features" kvs with
    | some v => v
    | none =>
      match lookupJ "events" kvs with
      | some v => v
      | none =>
        match lookupJ "data" kvs with
        | some v => v
        | none => (firstListVal kvs).getD (Json.arr []))
  | .arr xs => .arr xs
  | _ => .arr []

/-- Python `len`/iteration over the selected container: lists yield their
elements, dictionaries their keys, strings their characters; `None`, booleans
and numbers have no `len` (`TypeError`). -/
def pyItems : Json → Option (List Json)
  | .arr xs => some xs
  | .obj kvs => some (kvs.map (fun kv => Json.str kv.1))
  | .str s => some (s.data.map (fun c => Json.str (String.singleton c)))
  | _ => none

/-- Lines 103-208: `parse_events`.  `Except.error` models the only exception
that can escape the function: the `len(events)` call of line 133 sits outside
the per-record `try`, so a selected container without `len` raises an uncaught
`TypeError`. -/
def parse_events (events_data : Json) : Except String (List String) :=
  if truthy events_data then
    match pyItems (selectEvents events_data) with
    | none => Except.error "TypeError: len() of unsized object"
    | some items => Except.ok (items.filterMap processRecord)
  else Except.ok []

def isOkE : Except String (List String) → Bool
  | .ok _ => true
  | .error _ => false

/-- Python `'\n'.join`. -/
def joinNL : List String → String
  | [] => ""
  | [l] => l
  | l :: l2 :: rest => l ++ "\n" ++ joinNL (l2 :: rest)

/-- Outcome of `main` (lines 210-231) after the payload has been fetched and
decoded: either the run completes, writing the output file and returning the
exit code, or an exception escaped `parse_events` and the interpreter aborts
before any file write. -/
inductive RunOutcome where
  | crashed
  | completed (fileContent : String) (exitCode : Nat)
deriving DecidableEq

/-- Lines 210-231 applied to the decoded payload. -/
def main_run (events_data : Json) : RunOutcome :=
  match parse_events events_data with
  | .error _ => .crashed
  | .ok lines =>
    .completed (if lines.isEmpty then "" else joinNL lines) (if lines.isEmpty then 1 else 0)

/-! Query builder, lines 29-34.  `datetime.now()` is modelled by the current
local date of the invocation, given as a count of days since 1970-01-01;
`timedelta(days=365)` adds 365 to that count (it never overflows a date-only
view), and `strftime("%m/%d/%Y")` renders the proleptic Gregorian civil date,
which is the calendar of Python's `datetime`. -/

/-- Gregorian leap year, as in Python's `calendar`/`datetime`. -/
def isLeap (y : Nat) : Bool := (y % 4 == 0 && y % 100 != 0) || y % 400 == 0

def daysInYear (y : Nat) : Nat := if isLeap y then 366 else 365

def monthLen (y m : Nat) : Nat :=
  if m = 2 then (if isLeap y then 29 else 28)
  else if m = 4 ∨ m = 6 ∨ m = 9 ∨ m = 11 then 30 else 31

/-- Total days of the `k` consecutive years `y, y+1, ..., y+k-1`. -/
def spanYears (y : Nat) : Nat → Nat
  | 0 => 0
  | k + 1 => daysInYear y + spanYears (y + 1) k

/-- Total days of the `k` consecutive months `m, m+1, ..., m+k-1` of year `y`. -/
def spanMonths (y m : Nat) : Nat → Nat
  | 0 => 0
  | k + 1 => monthLen y m + spanMonths y (m + 1) k

/-- Peel whole years off a day count, starting at year `y` (fuel-bounded
structural recursion; the fuel passed is always sufficient). -/
def yearFrom (y n : Nat) : Nat → Nat × Nat
  | 0 => (y, n)
  | fuel + 1 => if n < daysInYear y then (y, n) else yearFrom (y + 1) (n - daysInYear y) fuel

/-- Peel whole months off a day count within year `y`, starting at month `m`. -/
def monthFrom (y m r : Nat) : Nat → Nat × Nat
  | 0 => (m, r)
  | fuel + 1 => if r < monthLen y m then (m, r) else monthFrom y (m + 1) (r - monthLen y m) fuel

/-- Civil date `(year, month, day)` of day number `n` (days since 1970-01-01)
in the proleptic Gregorian calendar — the date arithmetic of Python's
`datetime`. -/
def civilFromDays (n : Nat) : Nat × Nat × Nat :=
  let yr := yearFrom 1970 n (n + 1)
  let mr := monthFrom yr.1 1 yr.2 11
  (yr.1, mr.1, mr.2 + 1)

/-- Day number of a civil date, the inverse of `civilFromDays` on the dates
reachable from it. -/
def daysFromCivil (y m d : Nat) : Nat :=
  spanYears 1970 (y - 1970) + spanMonths y 1 (m - 1) + (d - 1)

def dfc : Nat × Nat × Nat → Nat
  | (y, m, d) => daysFromCivil y m d

def pad2 (n : Nat) : String :=
  String.mk [Nat.digitChar (n / 10 % 10), Nat.digitChar (n % 10)]

def pad4 (n : Nat) : String :=
  String.mk [Nat.digitChar (n / 1000 % 10), Nat.digitChar (n / 100 % 10),
    Nat.digitChar (n / 10 % 10), Nat.digitChar (n % 10)]

/-- `strftime("%m/%d/%Y")`: zero-padded two-digit month and day, four-digit
year (every year reachable here lies in 1970-9999). -/
def strfDate : Nat × Nat × Nat → String
  | (y, m, d) => pad2 m ++ "/" ++ pad2 d ++ "/" ++ pad4 y

/-- Lines 29-34: `get_date_range`, parametrised by the invocation's current
date (the source recomputes `datetime.now()` freshly on every call, so each
invocation is a pure function of its own `today`). -/
def get_date_range (today : Nat) : String × String :=
  (strfDate (civilFromDays today), strfDate (civilFromDays (today + 365)))

/-- Month and day in their calendar ranges (the shape `MM/DD/YYYY` promises),
and a year reachable from a day number. -/
def validDate : Nat × Nat × Nat → Prop
  | (y, m, d) => 1 ≤ m ∧ m ≤ 12 ∧ 1 ≤ d ∧ d ≤ 31 ∧ 1970 ≤ y

/-- The `MM/DD/YYYY` rendering pins down the date: no two valid dates with
four-digit years print alike. -/
def strfInjOn : Prop :=
  ∀ a b : Nat × Nat × Nat, validDate a → validDate b → a.1 ≤ 9999 → b.1 ≤ 9999 →
    strfDate a = strfDate b → a = b

/-- Conclusion of claim C7 at one invocation date: both rendered dates are the
`MM/DD/YYYY` rendering (10 characters, valid month/day) of the invocation's
date and of the date exactly 365 days later. -/
def c7Concl (today : Nat) : Prop :=
  (get_date_range today).1 = strfDate (civilFromDays today) ∧
  (get_date_range today).2 = strfDate (civilFromDays (today + 365)) ∧
  dfc (civilFromDays (today + 365)) = dfc (civilFromDays today) + 365 ∧
  validDate (civilFromDays today) ∧ validDate (civilFromDays (today + 365)) ∧
  ((get_date_range today).1).length = 10 ∧ ((get_date_range today).2).length = 10 ∧
  strfInjOn

/-! Response unwrapping, lines 84-97 of `search_events_by_radius`. -/

/-- Python `str.find` for one character (`none` models -1). -/
def firstIdx (c : Char) : List Char → Option Nat
  | [] => none
  | a :: rest => if a = c then some 0 else (firstIdx c rest).map (· + 1)

/-- Python `str.rfind` for one character. -/
def lastIdx (c : Char) : List Char → Option Nat
  | [] => none
  | a :: rest =>
    match lastIdx c rest with
    | some i => some (i + 1)
    | none => if a = c then some 0 else none

def bannerPre : List Char := chars "banner_callback_"

/-- Lines 84-89: JSONP unwrapping.  Only applied when the text starts with
`banner_callback_`; the slice `data[json_start:json_end]` replaces the text
only when a first `\x7b` exists and the last `\x7d` is not before it. -/
def unwrap_jsonp (s : List Char) : List Char :=
  if (dropPre bannerPre s).isSome then
    match firstIdx lbC s with
    | none => s
    | some i =>
      match lastIdx rbC s with
      | none => s
      | some j => if i < j + 1 then (s.drop i).take (j + 1 - i) else s
  else s

/-- Lines 91-97: the unwrapped text is handed to `json.loads`; a parse
failure is logged and surfaced as `None` ("no data").  `json.loads` is the
standard library's parser, abstracted here as the `loads` parameter. -/
def decode_response (loads : List Char → Option Json) (s : List Char) : Option Json :=
  loads (unwrap_jsonp s)

/-! Claim-side definitions, written from the words of claim C5 (not from the
source), for comparison against the embedded code. -/

/-- Claim C5's reading of the quoted onclick patterns: one fixed quote
character `qc` required on both sides. -/
def matchOnclickQ (qc : Char) (s : List Char) : Option (List Char) :=
  match dropPre (chars "onclick=") s with
  | none => none
  | some r =>
    match r with
    | q :: r2 =>
      if q = qc then
        match matchViewEvR r2 with
        | some (ds, q2 :: _) => if q2 = qc then some ds else none
        | _ => none
      else none
    | [] => none

/-- Claim C5's reading of the hyperlink pattern: any href target containing
`evid=<digits>` (the claim omits the source's additional `evr` requirement). -/
def hrefBodyClaim (body : List Char) : Bool := (searchAux matchEvid body).isSome

def matchHrefClaim (s : List Char) : Option (List Char) :=
  match dropPre (chars "href=") s with
  | none => none
  | some r =>
    match r with
    | q :: r2 =>
      if quoteC q then
        let body := r2.takeWhile (fun c => !quoteC c)
        match r2.dropWhile (fun c => !quoteC c) with
        | _ :: _ => if hrefBodyClaim body then some body else none
        | [] => none
      else none
    | [] => none

/-- Claim C5's normalisation: "that href used directly, prefixed with the
host when root-relative". -/
def normHrefClaim (u : String) : String :=
  if strStarts "/" u then kcbsHost ++ u else u

/-- The URL procedure exactly as claim C5 states it: explicit identifier
first, then a double-quoted onclick `viewEvent`, then a single-quoted one,
then a bare one, then a hyperlink containing `evid=<digits>`. -/
def extract_url_claim (event_id : Json) (hc : List Char) : String :=
  if truthy event_id then urlTemplate ++ pyStr event_id
  else
    match searchAux (matchOnclickQ dqC) hc with
    | some ds => urlTemplate ++ String.mk ds
    | none =>
      match searchAux (matchOnclickQ sqC) hc with
      | some ds => urlTemplate ++ String.mk ds
      | none =>
        match searchAux matchViewEv hc with
        | some ds => urlTemplate ++ String.mk ds
        | none =>
          match searchAux matchHrefClaim hc with
          | some body => normHrefClaim (String.mk body)
          | none => ""

/-! Concrete fixtures used by witnesses and counterexamples. -/

/-- The `html_content` of the spec's end-to-end scenario. -/
def c2html : String :=
  "<b>Smokeout</b> <i>6/1/2026 - 6/2/2026</i> DIST: 10 mi </a>Austin, TX 78701<br />UNITED STATES Reps: JANE DOE"

/-- The payload of the spec's end-to-end scenario. -/
def c2payload : Json :=
  .obj [("features", .arr [.obj [("id", .num 7),
    ("properties", .obj [("name", .str "Smokeout"), ("html_content", .str c2html)])]])]

/-- The single expected output line of the end-to-end scenario. -/
def c2line : String :=
  "Smokeout|10 mi|6/1/2026 - 6/2/2026|Austin, TX 78701|JANE DOE|https://mms.kcbs.us/members/evr/reg_event_kcba.php?orgcode=KCBA&evid=7"

/-- Properties of the name-precedence instance of claim C4. -/
def c4props : List (String × Json) :=
  [("name", Json.str "Other"), ("html_content", Json.str "<b>BBQ Bash</b>")]

def c4kvs : List (String × Json) := [("properties", Json.obj c4props)]

/-- A hyperlink whose target contains `evid=<digits>` but no `evr`: the code
and claim C5 disagree here. -/
def c5hc : List Char :=
  chars "<a href=" ++ [dqC] ++ chars "/foo.php?evid=5" ++ [dqC] ++ chars ">x</a>"

/-- The `html_content` of the spec's URL-precedence instance. -/
def c5whc : List Char := chars "<b>X</b> onclick=" ++ [dqC] ++ chars "viewEvent(999)" ++ [dqC]

/-- A location whose captured text carries a trailing space, stripped by the
code but not by the words of claim C6. -/
def c6hc : List Char := chars "</a>Austin <br />UNITED STATES"

/-! General lemmas about the scanning primitives. -/

theorem dropPre_eq_some {p s r : List Char} : dropPre p s = some r ↔ s = p ++ r := by
  induction p generalizing s with
  | nil => simp [dropPre]
  | cons a p ih =>
    cases s with
    | nil => simp [dropPre]
    | cons c cs =>
      simp only [dropPre, List.cons_append, List.cons.injEq]
      by_cases h : c = a
      · subst h
        simp [ih]
      · simp [h]

theorem dropPre_refl (p r : List Char) : dropPre p (p ++ r) = some r :=
  dropPre_eq_some.mpr rfl

theorem searchAux_eq_some {α : Type} {m : List Char → Option α} {s : List Char} {r : α}
    (h : searchAux m s = some r) : ∃ A B, s = A ++ B ∧ m B = some r := by
  induction s with
  | nil => exact ⟨[], [], rfl, h⟩
  | cons c cs ih =>
    rw [searchAux] at h
    cases hm : m (c :: cs) with
    | some x =>
      rw [hm] at h
      exact ⟨[], c :: cs, rfl, by rw [hm, ← h]⟩
    | none =>
      rw [hm] at h
      obtain ⟨A, B, hAB, hB⟩ := ih h
      exact ⟨c :: A, B, by rw [hAB, List.cons_append], hB⟩

theorem searchAux_app_some {α : Type} {m : List Char → Option α} (A : List Char) {B : List Char}
    {r : α} (h : m B = some r) : ∃ x, searchAux m (A ++ B) = some x := by
  induction A with
  | nil =>
    cases B with
    | nil => exact ⟨r, h⟩
    | cons c cs =>
      rw [List.nil_append, searchAux, h]
      exact ⟨r, rfl⟩
  | cons a A ih =>
    obtain ⟨x, hx⟩ := ih
    rw [List.cons_append, searchAux]
    cases hm : m (a :: (A ++ B)) with
    | some y => exact ⟨y, rfl⟩
    | none => exact ⟨x, hx⟩

theorem takeWhile_app {P : Char → Bool} {t : List Char} (ht : ∀ c ∈ t, P c = true)
    (u : List Char) (hu : ∀ c ∈ u.take 1, P c = false) :
    (t ++ u).takeWhile P = t ∧ (t ++ u).dropWhile P = u := by
  induction t with
  | nil =>
    cases u with
    | nil => exact ⟨rfl, rfl⟩
    | cons c cs =>
      have hc : P c = false := hu c (by simp)
      simp [List.takeWhile, List.dropWhile, hc]
  | cons a t ih =>
    have ha : P a = true := ht a (by simp)
    have ih2 := ih (fun c hc => ht c (by simp [hc]))
    simp [List.takeWhile, List.dropWhile, ha, ih2.1, ih2.2]

theorem dropWhile_head_false {P : Char → Bool} {l : List Char} {c : Char} {cs : List Char}
    (h : l.dropWhile P = c :: cs) : P c = false := by
  induction l with
  | nil => simp [List.dropWhile] at h
  | cons a as ih =>
    rw [List.dropWhile] at h
    cases hp : P a with
    | true =>
      rw [hp] at h
      exact ih h
    | false =>
      rw [hp] at h
      injection h with h1 h2
      rw [← h1]
      exact hp

/-! Claim C1. -/

/-- Claim C1 as stated is false: with the payload `("features", 5)` the
selected record container is the number 5, whose `len()` raises a `TypeError`
outside the per-record handler, so extraction does not survive every decoded
payload. -/
theorem claim1_cex :
    isOkE (parse_events (Json.obj [("features", Json.num 5)])) = false ∧
    ¬ (∀ j : Json, isOkE (parse_events j) = true) := by
  refine ⟨rfl, fun h => absurd (h (Json.obj [("features", Json.num 5)])) ?_⟩
  decide

/-- Claim C1, amended: every exception raised while processing a single
record is caught and the record skipped, and extraction completes normally on
every decoded payload, except that when the root is truthy and the selected
record container is `None`, a boolean or a number, the `len(events)` call of
line 133 sits above the per-record boundary and its `TypeError` aborts the
batch.  Stated as an exact characterisation: extraction completes iff the
payload is falsy or the selected container supports `len`/iteration. -/
theorem claim1_amended (j : Json) :
    isOkE (parse_events j) = (!truthy j || (pyItems (selectEvents j)).isSome) := by
  unfold parse_events
  cases ht : truthy j with
  | false => simp [isOkE]
  | true =>
    simp only [if_true]
    cases hp : pyItems (selectEvents j) <;> simp [isOkE, hp]

/-! Claim C2. -/

/-- Claim C2: the spec's end-to-end scenario.  The decoded payload with one
feature (id 7, name `Smokeout`, the given `html_content`) extracts to exactly
the one expected pipe-delimited line. -/
theorem claim2_thm : parse_events c2payload = Except.ok [c2line] := by rfl

/-! Claim C8. -/

/-- Claim C8 as stated is false: it asserts the output file is truncated and
rewritten on every run, but with the payload `("events", true)` the selected
container has no `len`, `parse_events` raises, and the process aborts before
any file write. -/
theorem claim8_cex :
    main_run (Json.obj [("events", Json.bool true)]) = RunOutcome.crashed ∧
    ¬ (∀ j : Json, ∃ s k, main_run j = RunOutcome.completed s k) := by
  refine ⟨rfl, fun h => ?_⟩
  obtain ⟨s, k, hk⟩ := h (Json.obj [("events", Json.bool true)])
  rw [show main_run (Json.obj [("events", Json.bool true)]) = RunOutcome.crashed from rfl] at hk
  exact RunOutcome.noConfusion hk

/-- Claim C8, amended: on every run in which extraction completes (every
payload except those whose selected record container lacks `len`), the output
file is truncated and rewritten with the newline-joined event lines, or with
the empty string when no line was produced; the exit code is 0 when at least
one line was produced and 1 otherwise — in particular the payload
`("features", [])` yields an empty output file and exit code 1.  When
extraction raises, the run aborts with no file write. -/
theorem claim8_amended :
    (∀ (j : Json) (lines : List String), parse_events j = Except.ok lines →
      main_run j = RunOutcome.completed (if lines.isEmpty then "" else joinNL lines)
        (if lines.isEmpty then 1 else 0)) ∧
    main_run (Json.obj [("features", Json.arr [])]) = RunOutcome.completed "" 1 := by
  refine ⟨fun j lines h => ?_, rfl⟩
  unfold main_run
  rw [h]

/-- Witness for C8: the amended theorem applied to a concrete empty payload. -/
theorem claim8_witness :
    main_run (Json.obj [("data", Json.arr [])]) = RunOutcome.completed "" 1 :=
  claim8_amended.1 (Json.obj [("data", Json.arr [])]) [] rfl

/-! Claim C9. -/

/-- Claim C9: extraction is a deterministic function of the decoded payload
alone.  In this embedding `parse_events` is a pure function of its `Json`
argument — it takes no clock, file, network or random input (contrast
`get_date_range`, which needs the invocation date as an argument) — so two
runs on copies of the same payload yield identical output-line sequences. -/
theorem claim9_thm (j1 j2 : Json) (h : j1 = j2) : parse_events j1 = parse_events j2 := by
  rw [h]

/-- Witness for C9 at a concrete payload. -/
theorem claim9_witness : parse_events Json.null = parse_events Json.null :=
  claim9_thm Json.null Json.null rfl

/-! Claim C7: calendar lemmas. -/

theorem spanYears_succ (y k : Nat) : spanYears y (k + 1) = daysInYear y + spanYears (y + 1) k := rfl

theorem spanMonths_zero (y m : Nat) : spanMonths y m 0 = 0 := rfl

theorem spanMonths_succ (y m k : Nat) :
    spanMonths y m (k + 1) = monthLen y m + spanMonths y (m + 1) k := rfl

theorem daysInYear_bounds (y : Nat) : 365 ≤ daysInYear y ∧ daysInYear y ≤ 366 := by
  unfold daysInYear
  split <;> omega

theorem monthLen_bounds (y m : Nat) : 28 ≤ monthLen y m ∧ monthLen y m ≤ 31 := by
  unfold monthLen
  split_ifs <;> omega

/-- Twelve months make the year. -/
theorem spanMonths_year (y : Nat) : spanMonths y 1 12 = daysInYear y := by
  cases h : isLeap y <;>
    simp [spanMonths_succ, spanMonths_zero, monthLen, daysInYear, h]

theorem yearFrom_spec (fuel : Nat) : ∀ y n, n ≤ 365 * fuel →
    ∃ k r, yearFrom y n fuel = (y + k, r) ∧ spanYears y k + r = n ∧ r < daysInYear (y + k) := by
  induction fuel with
  | zero =>
    intro y n h
    have hn : n = 0 := by omega
    subst hn
    exact ⟨0, 0, rfl, rfl, by have := daysInYear_bounds (y + 0); omega⟩
  | succ fuel ih =>
    intro y n h
    rw [yearFrom]
    by_cases hlt : n < daysInYear y
    · exact ⟨0, n, by rw [if_pos hlt]; simp, by simp [spanYears], by simpa using hlt⟩
    · rw [if_neg hlt]
      have hb := daysInYear_bounds y
      obtain ⟨k, r, h1, h2, h3⟩ := ih (y + 1) (n - daysInYear y) (by omega)
      have e1 : y + 1 + k = y + (k + 1) := by omega
      refine ⟨k + 1, r, by rw [h1, e1], ?_, by rw [← e1]; exact h3⟩
      rw [spanYears_succ]
      omega

theorem monthFrom_spec (y : Nat) (fuel : Nat) : ∀ m r, r < spanMonths y m (fuel + 1) →
    ∃ k, k ≤ fuel ∧ monthFrom y m r fuel = (m + k, r - spanMonths y m k) ∧
      spanMonths y m k ≤ r ∧ r - spanMonths y m k < monthLen y (m + k) := by
  induction fuel with
  | zero =>
    intro m r h
    rw [spanMonths_succ, spanMonths_zero] at h
    exact ⟨0, Nat.le_refl 0, rfl, Nat.zero_le r,
      by simp only [spanMonths_zero, Nat.add_zero, Nat.sub_zero]; omega⟩
  | succ fuel ih =>
    intro m r h
    rw [monthFrom]
    by_cases hlt : r < monthLen y m
    · exact ⟨0, Nat.zero_le _, by rw [if_pos hlt]; simp [spanMonths_zero], Nat.zero_le r,
        by simp only [spanMonths_zero, Nat.add_zero, Nat.sub_zero]; exact hlt⟩
    · rw [if_neg hlt]
      rw [spanMonths_succ] at h
      obtain ⟨k, hk, h1, h2, h3⟩ := ih (m + 1) (r - monthLen y m) (by omega)
      have e1 : m + 1 + k = m + (k + 1) := by omega
      have e2 : r - monthLen y m - spanMonths y (m + 1) k = r - spanMonths y m (k + 1) := by
        rw [spanMonths_succ]
        omega
      refine ⟨k + 1, by omega, by rw [h1, e1, e2], ?_, ?_⟩
      · rw [spanMonths_succ]
        omega
      · rw [← e1, ← e2]
        exact h3

/-- The date produced for a day number is valid and maps back to that day
number: `civilFromDays` and `daysFromCivil` are mutually inverse on the
reachable dates. -/
theorem civilFromDays_spec (n : Nat) :
    dfc (civilFromDays n) = n ∧ validDate (civilFromDays n) := by
  obtain ⟨k, r, h1, h2, h3⟩ := yearFrom_spec (n + 1) 1970 n (by omega)
  have hr : r < spanMonths (1970 + k) 1 12 := by
    rw [spanMonths_year]
    exact h3
  obtain ⟨k2, hk2, h4, h5, h6⟩ := monthFrom_spec (1970 + k) 11 1 r hr
  have hml := monthLen_bounds (1970 + k) (1 + k2)
  have hc : civilFromDays n = (1970 + k, 1 + k2, r - spanMonths (1970 + k) 1 k2 + 1) := by
    unfold civilFromDays
    rw [h1]
    dsimp only
    rw [h4]
  rw [hc]
  constructor
  · show daysFromCivil (1970 + k) (1 + k2) (r - spanMonths (1970 + k) 1 k2 + 1) = n
    unfold daysFromCivil
    have e1 : 1970 + k - 1970 = k := by omega
    have e2 : 1 + k2 - 1 = k2 := by omega
    rw [e1, e2]
    omega
  · show 1 ≤ 1 + k2 ∧ 1 + k2 ≤ 12 ∧ 1 ≤ r - spanMonths (1970 + k) 1 k2 + 1 ∧
      r - spanMonths (1970 + k) 1 k2 + 1 ≤ 31 ∧ 1970 ≤ 1970 + k
    omega

theorem digitChar_inj :
    ∀ u : Nat, u < 10 → ∀ v : Nat, v < 10 → Nat.digitChar u = Nat.digitChar v → u = v := by
  decide

/-- The `MM/DD/YYYY` rendering is injective on valid four-digit-year dates. -/
theorem strf_inj : strfInjOn := by
  rintro ⟨y1, m1, d1⟩ ⟨y2, m2, d2⟩ hv1 hv2 hy1 hy2 heq
  obtain ⟨hm1a, hm1b, hd1a, hd1b, hy1a⟩ := hv1
  obtain ⟨hm2a, hm2b, hd2a, hd2b, hy2a⟩ := hv2
  have hd : (strfDate (y1, m1, d1)).data = (strfDate (y2, m2, d2)).data := by rw [heq]
  have e1 : (strfDate (y1, m1, d1)).data =
      [Nat.digitChar (m1 / 10 % 10), Nat.digitChar (m1 % 10), '/',
       Nat.digitChar (d1 / 10 % 10), Nat.digitChar (d1 % 10), '/',
       Nat.digitChar (y1 / 1000 % 10), Nat.digitChar (y1 / 100 % 10),
       Nat.digitChar (y1 / 10 % 10), Nat.digitChar (y1 % 10)] := rfl
  have e2 : (strfDate (y2, m2, d2)).data =
      [Nat.digitChar (m2 / 10 % 10), Nat.digitChar (m2 % 10), '/',
       Nat.digitChar (d2 / 10 % 10), Nat.digitChar (d2 % 10), '/',
       Nat.digitChar (y2 / 1000 % 10), Nat.digitChar (y2 / 100 % 10),
       Nat.digitChar (y2 / 10 % 10), Nat.digitChar (y2 % 10)] := rfl
  rw [e1, e2] at hd
  simp only [List.cons.injEq, and_true] at hd
  obtain ⟨q1, q2, _, q3, q4, _, q5, q6, q7, q8⟩ := hd
  have r1 := digitChar_inj _ (by omega) _ (by omega) q1
  have r2 := digitChar_inj _ (by omega) _ (by omega) q2
  have r3 := digitChar_inj _ (by omega) _ (by omega) q3
  have r4 := digitChar_inj _ (by omega) _ (by omega) q4
  have r5 := digitChar_inj _ (by omega) _ (by omega) q5
  have r6 := digitChar_inj _ (by omega) _ (by omega) q6
  have r7 := digitChar_inj _ (by omega) _ (by omega) q7
  have r8 := digitChar_inj _ (by omega) _ (by omega) q8
  have : y1 = y2 ∧ m1 = m2 ∧ d1 = d2 := by omega
  simp [Prod.ext_iff]
  omega

/-- Claim C7: on every invocation, the begin date is the `MM/DD/YYYY`
rendering of the invocation's current date and the end date is the rendering
of the date exactly 365 days later (as day numbers: `end = begin + 365`),
both valid two-digit-month/two-digit-day, ten-character strings, and the
rendering pins the dates down uniquely.  The range is recomputed from the
`today` of each invocation — there is no cached state.  The hypothesis keeps
the end year within `datetime`'s four-digit range, where `%Y` is modelled. -/
theorem claim7_thm (today : Nat) (_hmax : (civilFromDays (today + 365)).1 ≤ 9999) :
    c7Concl today := by
  obtain ⟨hb1, hb2⟩ := civilFromDays_spec today
  obtain ⟨he1, he2⟩ := civilFromDays_spec (today + 365)
  refine ⟨rfl, rfl, by rw [he1, hb1], hb2, he2, ?_, ?_, strf_inj⟩
  · rcases hc : civilFromDays today with ⟨y, m, d⟩
    rw [show (get_date_range today).1 = strfDate (civilFromDays today) from rfl, hc]
    rfl
  · rcases hc : civilFromDays (today + 365) with ⟨y, m, d⟩
    rw [show (get_date_range today).2 = strfDate (civilFromDays (today + 365)) from rfl, hc]
    rfl

/-- Witness for C7 at the concrete invocation date 2024-10-04 (day 20000). -/
theorem claim7_witness : c7Concl 20000 :=
  claim7_thm 20000 (by decide)

/-! Claim C3. -/

/-- Claim C3: record-list discovery is first-match-wins in the order
`features`, `events`, `data`, first list-valued key (in insertion order) for
mappings; a list root is used directly; anything else yields the empty list.
The `firstListVal` conjuncts characterise the fourth branch: it returns the
value of the first key bound to a list, and `none` when no key is.  The last
conjunct is the spec's instance: `features` beats `events`. -/
theorem claim3_thm :
    (∀ kvs v, lookupJ "features" kvs = some v → selectEvents (Json.obj kvs) = v) ∧
    (∀ kvs v, lookupJ "features" kvs = none → lookupJ "events" kvs = some v →
      selectEvents (Json.obj kvs) = v) ∧
    (∀ kvs v, lookupJ "features" kvs = none → lookupJ "events" kvs = none →
      lookupJ "data" kvs = some v → selectEvents (Json.obj kvs) = v) ∧
    (∀ kvs, lookupJ "features" kvs = none → lookupJ "events" kvs = none →
      lookupJ "data" kvs = none →
      selectEvents (Json.obj kvs) = (firstListVal kvs).getD (Json.arr [])) ∧
    (∀ l1 k xs l2, (∀ p ∈ l1, ∀ ys, p.2 ≠ Json.arr ys) →
      firstListVal (l1 ++ (k, Json.arr xs) :: l2) = some (Json.arr xs)) ∧
    (∀ kvs, (∀ p ∈ kvs, ∀ ys, p.2 ≠ Json.arr ys) → firstListVal kvs = none) ∧
    (∀ xs, selectEvents (Json.arr xs) = Json.arr xs) ∧
    (selectEvents Json.null = Json.arr []) ∧
    (∀ b, selectEvents (Json.bool b) = Json.arr []) ∧
    (∀ n, selectEvents (Json.num n) = Json.arr []) ∧
    (∀ s, selectEvents (Json.str s) = Json.arr []) ∧
    (∀ fv ev rest,
      selectEvents (Json.obj (("features", fv) :: ("events", ev) :: rest)) = fv) := by
  have harr : ∀ l1 k xs l2, (∀ p ∈ l1, ∀ ys, p.2 ≠ Json.arr ys) →
      firstListVal (l1 ++ (k, Json.arr xs) :: l2) = some (Json.arr xs) := by
    intro l1 k xs l2 hno
    induction l1 with
    | nil => simp [firstListVal]
    | cons p l1 ih =>
      obtain ⟨kp, vp⟩ := p
      have hv := hno (kp, vp) (by simp)
      have ih2 := ih (fun q hq => hno q (by simp [hq]))
      cases vp with
      | arr ys => exact absurd rfl (hv ys)
      | null => simpa [firstListVal] using ih2
      | bool b => simpa [firstListVal] using ih2
      | num n => simpa [firstListVal] using ih2
      | str s => simpa [firstListVal] using ih2
      | obj es => simpa [firstListVal] using ih2
  have hnone : ∀ kvs, (∀ p ∈ kvs, ∀ ys, p.2 ≠ Json.arr ys) → firstListVal kvs = none := by
    intro kvs hno
    induction kvs with
    | nil => rfl
    | cons p l1 ih =>
      obtain ⟨kp, vp⟩ := p
      have hv := hno (kp, vp) (by simp)
      have ih2 := ih (fun q hq => hno q (by simp [hq]))
      cases vp with
      | arr ys => exact absurd rfl (hv ys)
      | null => simpa [firstListVal] using ih2
      | bool b => simpa [firstListVal] using ih2
      | num n => simpa [firstListVal] using ih2
      | str s => simpa [firstListVal] using ih2
      | obj es => simpa [firstListVal] using ih2
  refine ⟨?_, ?_, ?_, ?_, harr, hnone, fun xs => rfl, rfl, fun b => rfl, fun n => rfl,
    fun s => rfl, ?_⟩
  · intro kvs v h1
    simp [selectEvents, h1]
  · intro kvs v h1 h2
    simp [selectEvents, h1, h2]
  · intro kvs v h1 h2 h3
    simp [selectEvents, h1, h2, h3]
  · intro kvs h1 h2 h3
    simp [selectEvents, h1, h2, h3]
  · intro fv ev rest
    simp [selectEvents, lookupJ]

/-- Witness for C3: a mapping with both `features` and `events` populated
selects the `features` value. -/
theorem claim3_witness :
    selectEvents (Json.obj [("features", Json.arr []), ("events", Json.arr [Json.null])]) =
      Json.arr [] :=
  claim3_thm.1 [("features", Json.arr []), ("events", Json.arr [Json.null])] (Json.arr []) rfl

/-! Claim C4. -/

theorem str_append_assoc (a b c : String) : a ++ b ++ c = a ++ (b ++ c) := by
  cases a
  cases b
  cases c
  show String.mk _ = String.mk _
  rw [List.append_assoc]

theorem matchTagB_sound {opn cls s b : List Char} (hm : matchTagB opn cls s = some b) :
    ∃ B, s = opn ++ b ++ cls ++ B ∧ b ≠ [] ∧ ∀ c ∈ b, (c != ltC) = true := by
  unfold matchTagB at hm
  cases hd : dropPre opn s with
  | none =>
    rw [hd] at hm
    simp at hm
  | some r1 =>
    rw [hd] at hm
    dsimp only at hm
    by_cases he : (r1.takeWhile (· != ltC)).isEmpty
    · rw [if_pos he] at hm
      simp at hm
    · rw [if_neg he] at hm
      cases hc : dropPre cls (r1.dropWhile (· != ltC)) with
      | none =>
        rw [hc] at hm
        simp at hm
      | some r4 =>
        rw [hc] at hm
        injection hm with hb
        have hs1 : s = opn ++ r1 := dropPre_eq_some.mp hd
        have hdw : r1.dropWhile (· != ltC) = cls ++ r4 := dropPre_eq_some.mp hc
        refine ⟨r4, ?_, ?_, ?_⟩
        · rw [hs1, ← List.takeWhile_append_dropWhile (p := (· != ltC)) (l := r1), hdw, hb]
          simp [List.append_assoc]
        · rw [← hb]
          simpa [List.isEmpty_iff] using he
        · intro c hcmem
          rw [← hb] at hcmem
          exact List.mem_takeWhile_imp (p := (· != ltC)) (l := r1) hcmem

theorem searchTag_sound {opn cls s b : List Char}
    (h : searchTag opn cls s = some b) :
    ∃ A B, s = A ++ opn ++ b ++ cls ++ B ∧ b ≠ [] ∧ ∀ c ∈ b, (c != ltC) = true := by
  obtain ⟨A, B0, hAB, hB⟩ := searchAux_eq_some h
  obtain ⟨B, hdec, hne, hmem⟩ := matchTagB_sound hB
  exact ⟨A, B, by rw [hAB, hdec]; simp [List.append_assoc], hne, hmem⟩

/-- Claim C4: for a record carrying a `properties` mapping (with string
`html_content` and `name`, possibly defaulted), the derived name is the
stripped text inside the first `<b>...</b>` span when one exists and the raw
`name` field otherwise; a record whose derived name is empty contributes no
line at all, and a nonempty derived name always contributes a line starting
with that name — so the name test is the only filter for such records.  The
last conjunct grounds "text inside a `<b>...</b>` span": any successful
capture is a nonempty `<`-free text delimited by the two tags. -/
theorem claim4_thm (kvs props : List (String × Json)) (h nm : String)
    (hp : lookupJ "properties" kvs = some (Json.obj props))
    (hh : jgetD props "html_content" (Json.str "") = Json.str h)
    (hn : jgetD props "name" (Json.str "") = Json.str nm) :
    ((match searchTag (chars "<b>") (chars "</b>") h.data with
      | some b => pyStrip b
      | none => nm) = "" → processRecord (Json.obj kvs) = none) ∧
    ((match searchTag (chars "<b>") (chars "</b>") h.data with
      | some b => pyStrip b
      | none => nm) ≠ "" → ∃ rest, processRecord (Json.obj kvs) =
        some ((match searchTag (chars "<b>") (chars "</b>") h.data with
          | some b => pyStrip b
          | none => nm) ++ "|" ++ rest)) ∧
    (∀ b, searchTag (chars "<b>") (chars "</b>") h.data = some b →
      ∃ A B, h.data = A ++ chars "<b>" ++ b ++ chars "</b>" ++ B ∧ b ≠ [] ∧
        ∀ c ∈ b, (c != ltC) = true) := by
  have hproc : ∀ dn : String,
      extract_name (jgetD props "name" (Json.str "")) h.data = Json.str dn →
      processRecord (Json.obj kvs) = (if (dn != "") = true then
        some (dn ++ "|" ++ extract_distance h.data ++ "|" ++ extract_dates h.data ++ "|" ++
          extract_location h.data ++ "|" ++ extract_rep h.data ++ "|" ++
          extract_event_url (idChain kvs props) h.data) else none) := by
    intro dn hdn
    simp only [processRecord, hp, hh, hdn, truthy, pyStr]
  have hname : extract_name (jgetD props "name" (Json.str "")) h.data =
      Json.str (match searchTag (chars "<b>") (chars "</b>") h.data with
        | some b => pyStrip b
        | none => nm) := by
    unfold extract_name
    cases hs : searchTag (chars "<b>") (chars "</b>") h.data with
    | some b => rfl
    | none => rw [hn]
  refine ⟨?_, ?_, fun b hb => searchTag_sound hb⟩
  · intro hdn
    rw [hproc _ hname]
    rw [hdn]
    rfl
  · intro hdn
    rw [hproc _ hname]
    rw [if_pos (by simpa using hdn)]
    exact ⟨extract_distance h.data ++ "|" ++ extract_dates h.data ++ "|" ++
      extract_location h.data ++ "|" ++ extract_rep h.data ++ "|" ++
      extract_event_url (idChain kvs props) h.data, by simp [str_append_assoc]⟩

/-- Witness for C4: the spec's precedence instance — `html_content`
`<b>BBQ Bash</b>` with direct `name` field `Other` derives the name
`BBQ Bash` and produces a line. -/
theorem claim4_witness :
    ∃ rest, processRecord (Json.obj c4kvs) = some ("BBQ Bash" ++ "|" ++ rest) :=
  (claim4_thm c4kvs c4props "<b>BBQ Bash</b>" "Other" rfl rfl rfl).2.1 (by decide)

/-! Claim C10. -/

theorem firstIdx_get {c : Char} {l : List Char} {i : Nat} (h : firstIdx c l = some i) :
    l.get? i = some c := by
  induction l generalizing i with
  | nil => simp [firstIdx] at h
  | cons a rest ih =>
    rw [firstIdx] at h
    by_cases ha : a = c
    · rw [if_pos ha] at h
      injection h with h1
      rw [← h1, ha]
      rfl
    · rw [if_neg ha] at h
      cases hfi : firstIdx c rest with
      | none =>
        rw [hfi] at h
        simp at h
      | some k =>
        rw [hfi] at h
        injection h with h1
        rw [← h1]
        exact ih hfi

theorem lastIdx_get {c : Char} {l : List Char} {i : Nat} (h : lastIdx c l = some i) :
    l.get? i = some c := by
  induction l generalizing i with
  | nil => simp [lastIdx] at h
  | cons a rest ih =>
    rw [lastIdx] at h
    cases hli : lastIdx c rest with
    | some k =>
      rw [hli] at h
      injection h with h1
      rw [← h1]
      exact ih hli
    | none =>
      rw [hli] at h
      by_cases ha : a = c
      · rw [if_pos ha] at h
        injection h with h1
        rw [← h1, ha]
        rfl
      · rw [if_neg ha] at h
        simp at h

/-- Claim C10: JSONP unwrapping applies only to text starting with the
literal prefix `banner_callback_`; any other text passes to the JSON parser
unmodified, and if it fails to parse the result is the logged `None` ("no
data").  Even with the prefix, the text is left unchanged when it contains no
opening brace, or when its last closing brace does not come after its first
opening brace. -/
theorem claim10_thm (loads : List Char → Option Json) (s : List Char) :
    ((dropPre bannerPre s).isSome = false → unwrap_jsonp s = s ∧
      (loads s = none → decode_response loads s = none)) ∧
    ((dropPre bannerPre s).isSome = true →
      (firstIdx lbC s = none → unwrap_jsonp s = s) ∧
      (∀ i j, firstIdx lbC s = some i → lastIdx rbC s = some j → j ≤ i →
        unwrap_jsonp s = s)) := by
  constructor
  · intro hpre
    have hu : unwrap_jsonp s = s := by
      unfold unwrap_jsonp
      rw [hpre]
      rfl
    refine ⟨hu, fun hl => ?_⟩
    unfold decode_response
    rw [hu]
    exact hl
  · intro hpre
    constructor
    · intro hf
      unfold unwrap_jsonp
      rw [hpre, hf]
      rfl
    · intro i j hf hlj hle
      have hne : i ≠ j := by
        intro he
        have h1 := firstIdx_get hf
        have h2 := lastIdx_get hlj
        rw [he, h2] at h1
        injection h1 with h3
        exact absurd h3 (by decide)
      have hni : ¬ i < j + 1 := by omega
      unfold unwrap_jsonp
      rw [hpre, hf, hlj]
      simp [hni]

/-- Witness for C10: a response wrapped in a different callback identifier is
left unchanged by the unwrap step and, failing to parse, yields `None`. -/
theorem claim10_witness :
    unwrap_jsonp (chars "evcb(\x7b\x7d)") = chars "evcb(\x7b\x7d)" ∧
    decode_response (fun _ => none) (chars "evcb(\x7b\x7d)") = none := by
  have h := (claim10_thm (fun _ => none) (chars "evcb(\x7b\x7d)")).1 (by decide)
  exact ⟨h.1, h.2 rfl⟩

/-! Claim C5. -/

/-- Claim C5 as stated is false: for a record with no identifier whose
`html_content` is `<a href="/foo.php?evid=5">x</a>`, the claim's described
procedure uses the hyperlink (its target contains `evid=5`) and produces the
host-prefixed URL, but the source's href pattern additionally requires the
literal `evr` inside the target, so the code produces the empty string. -/
theorem claim5_cex :
    extract_event_url Json.null c5hc = "" ∧
    extract_url_claim Json.null c5hc = "https://mms.kcbs.us/foo.php?evid=5" ∧
    ¬ (∀ (event_id : Json) (hc : List Char),
        extract_event_url event_id hc = extract_url_claim event_id hc) := by
  refine ⟨rfl, rfl, fun h => absurd (h Json.null c5hc) ?_⟩
  decide

theorem matchViewEvR_sound {s ds rest : List Char} (h : matchViewEvR s = some (ds, rest)) :
    s = chars "viewEvent(" ++ ds ++ ')' :: rest ∧ ds ≠ [] ∧ ∀ c ∈ ds, c.isDigit = true := by
  unfold matchViewEvR at h
  cases hd : dropPre (chars "viewEvent(") s with
  | none =>
    rw [hd] at h
    simp at h
  | some r =>
    rw [hd] at h
    dsimp only at h
    by_cases he : (r.takeWhile Char.isDigit).isEmpty
    · rw [if_pos he] at h
      simp at h
    · rw [if_neg he] at h
      cases hw : r.dropWhile Char.isDigit with
      | nil =>
        rw [hw] at h
        simp at h
      | cons c rest2 =>
        rw [hw] at h
        dsimp only at h
        by_cases hc : c = ')'
        · rw [if_pos hc] at h
          injection h with h1
          injection h1 with h2 h3
          subst h2
          subst h3
          refine ⟨?_, by simpa [List.isEmpty_iff] using he,
            fun c hcm => List.mem_takeWhile_imp (p := Char.isDigit) (l := r) hcm⟩
          have hr : List.takeWhile Char.isDigit r ++ ')' :: rest2 = r := by
            conv_rhs => rw [← List.takeWhile_append_dropWhile (p := Char.isDigit) (l := r)]
            rw [hw, hc]
          rw [dropPre_eq_some.mp hd, List.append_assoc]
          exact congrArg (chars "viewEvent(" ++ ·) hr.symm
        · rw [if_neg hc] at h
          simp at h

theorem matchOnclick_sound {s ds : List Char} (h : matchOnclick s = some ds) :
    ∃ q1 q2 rest, quoteC q1 = true ∧ quoteC q2 = true ∧
      s = chars "onclick=" ++ q1 :: (chars "viewEvent(" ++ ds ++ ')' :: q2 :: rest) ∧
      ds ≠ [] ∧ ∀ c ∈ ds, c.isDigit = true := by
  unfold matchOnclick at h
  cases hd : dropPre (chars "onclick=") s with
  | none =>
    rw [hd] at h
    simp at h
  | some r =>
    rw [hd] at h
    cases r with
    | nil => simp at h
    | cons q r2 =>
      dsimp only at h
      by_cases hq : quoteC q
      · rw [if_pos hq] at h
        cases hv : matchViewEvR r2 with
        | none =>
          rw [hv] at h
          simp at h
        | some p =>
          obtain ⟨ds2, rest⟩ := p
          rw [hv] at h
          dsimp only at h
          cases rest with
          | nil => simp at h
          | cons q2 rest2 =>
            dsimp only at h
            by_cases hq2 : quoteC q2
            · rw [if_pos hq2] at h
              injection h with h1
              subst h1
              obtain ⟨hdec, hne, hdig⟩ := matchViewEvR_sound hv
              exact ⟨q, q2, rest2, hq, hq2, by rw [dropPre_eq_some.mp hd, hdec], hne, hdig⟩
            · rw [if_neg hq2] at h
              simp at h
      · rw [if_neg hq] at h
        simp at h

theorem matchEvid_sound {s : List Char} (h : matchEvid s = some ()) :
    ∃ d Z, s = chars "evid=" ++ d :: Z ∧ d.isDigit = true := by
  unfold matchEvid at h
  cases hd : dropPre (chars "evid=") s with
  | none =>
    rw [hd] at h
    simp at h
  | some r =>
    rw [hd] at h
    cases r with
    | nil => simp at h
    | cons c tail =>
      by_cases hc : c.isDigit
      · exact ⟨c, tail, dropPre_eq_some.mp hd, hc⟩
      · exfalso
        simp [hc] at h

theorem matchHref_sound {s b : List Char} (h : matchHref s = some b) :
    ∃ q1 q2 rest, quoteC q1 = true ∧ quoteC q2 = true ∧
      s = chars "href=" ++ q1 :: (b ++ q2 :: rest) ∧ (∀ c ∈ b, quoteC c = false) ∧
      ∃ X Y Z d, b = X ++ chars "evr" ++ Y ++ chars "evid=" ++ d :: Z ∧ d.isDigit = true := by
  unfold matchHref at h
  cases hd : dropPre (chars "href=") s with
  | none =>
    rw [hd] at h
    simp at h
  | some r =>
    rw [hd] at h
    cases r with
    | nil => simp at h
    | cons q r2 =>
      dsimp only at h
      by_cases hq : quoteC q
      · rw [if_pos hq] at h
        cases hw : r2.dropWhile (fun c => !quoteC c) with
        | nil =>
          rw [hw] at h
          simp at h
        | cons q2 rest2 =>
          rw [hw] at h
          dsimp only at h
          by_cases hb : hrefBody (r2.takeWhile (fun c => !quoteC c))
          · rw [if_pos hb] at h
            injection h with h1
            have hq2 : quoteC q2 = true := by
              have := dropWhile_head_false hw
              simpa using this
            have hbody : ∀ c ∈ b, quoteC c = false := by
              intro c hcm
              rw [← h1] at hcm
              have := List.mem_takeWhile_imp (p := fun c => !quoteC c) (l := r2) hcm
              simpa using this
            have hdec : s = chars "href=" ++ q :: (b ++ q2 :: rest2) := by
              rw [dropPre_eq_some.mp hd, ← List.takeWhile_append_dropWhile
                (p := fun c => !quoteC c) (l := r2), hw, h1]
            refine ⟨q, q2, rest2, hq, hq2, hdec, hbody, ?_⟩
            unfold hrefBody at hb
            cases hf : findSub (chars "evr") (r2.takeWhile (fun c => !quoteC c)) with
            | none =>
              rw [hf] at hb
              simp at hb
            | some rem =>
              rw [hf] at hb
              dsimp only at hb
              cases hev : searchAux matchEvid rem with
              | none =>
                rw [hev] at hb
                simp at hb
              | some u =>
                obtain ⟨X, B, hXB, hB⟩ := searchAux_eq_some hf
                have hBrem : B = chars "evr" ++ rem := dropPre_eq_some.mp hB
                obtain ⟨Y, B2, hYB2, hB2⟩ := searchAux_eq_some hev
                obtain ⟨d, Z, hdz, hdig⟩ := matchEvid_sound (by rw [hB2])
                refine ⟨X, Y, Z, d, ?_, hdig⟩
                rw [← h1, hXB, hBrem, hYB2, hdz]
                simp [List.append_assoc]
          · rw [if_neg hb] at h
            simp at h
      · rw [if_neg hq] at h
        simp at h

/-- Claim C5, amended: if the record exposes a truthy identifier (record `id`,
then properties `id`/`evid`/`event_id`, in that order), the detail URL is the
fixed template with that identifier — regardless of any `viewEvent(...)` in
`html_content`.  Only otherwise is the id recovered from `html_content`, in
order: a quoted `onclick=viewEvent(<digits>)` whose two quote characters may
each independently be single or double (the source's "double-quoted" and
"single-quoted" patterns are one and the same either-quote regex), then a bare
`viewEvent(<digits>)`, then a hyperlink whose quote-free target contains `evr`
and, later, `evid=<digits>` (that href used directly when it starts with
`http`, prefixed with the host when root-relative, and prefixed with host and
`/` otherwise); the URL is empty when nothing matches.  The soundness
conjuncts pin down what the onclick and href searches accept. -/
theorem claim5_amended :
    (∀ (event_id : Json) (hc : List Char), truthy event_id = true →
      extract_event_url event_id hc = urlTemplate ++ pyStr event_id) ∧
    (∀ (event_id : Json) (hc ds : List Char), truthy event_id = false →
      searchAux matchOnclick hc = some ds →
      extract_event_url event_id hc = urlTemplate ++ String.mk ds) ∧
    (∀ (event_id : Json) (hc ds : List Char), truthy event_id = false →
      searchAux matchOnclick hc = none → searchAux matchViewEv hc = some ds →
      extract_event_url event_id hc = urlTemplate ++ String.mk ds) ∧
    (∀ (event_id : Json) (hc b : List Char), truthy event_id = false →
      searchAux matchOnclick hc = none → searchAux matchViewEv hc = none →
      searchAux matchHref hc = some b →
      extract_event_url event_id hc = normHref (String.mk b)) ∧
    (∀ (event_id : Json) (hc : List Char), truthy event_id = false →
      searchAux matchOnclick hc = none → searchAux matchViewEv hc = none →
      searchAux matchHref hc = none → extract_event_url event_id hc = "") ∧
    (∀ s ds : List Char, matchOnclick s = some ds →
      ∃ q1 q2 rest, quoteC q1 = true ∧ quoteC q2 = true ∧
        s = chars "onclick=" ++ q1 :: (chars "viewEvent(" ++ ds ++ ')' :: q2 :: rest) ∧
        ds ≠ [] ∧ ∀ c ∈ ds, c.isDigit = true) ∧
    (∀ s b : List Char, matchHref s = some b →
      ∃ X Y Z d, b = X ++ chars "evr" ++ Y ++ chars "evid=" ++ d :: Z ∧
        d.isDigit = true) := by
  refine ⟨?_, ?_, ?_, ?_, ?_, fun s ds h => matchOnclick_sound h, fun s b h => ?_⟩
  · intro event_id hc ht
    unfold extract_event_url
    rw [if_pos ht]
  · intro event_id hc ds ht h1
    unfold extract_event_url
    rw [if_neg (by simp [ht]), h1]
  · intro event_id hc ds ht h1 h2
    unfold extract_event_url
    rw [if_neg (by simp [ht]), h1, h2]
  · intro event_id hc b ht h1 h2 h3
    unfold extract_event_url
    rw [if_neg (by simp [ht]), h1, h2, h3]
  · intro event_id hc ht h1 h2 h3
    unfold extract_event_url
    rw [if_neg (by simp [ht]), h1, h2, h3]
  · obtain ⟨q1, q2, rest, _, _, _, _, hex⟩ := matchHref_sound h
    exact hex

/-- Witness for C5: the spec's URL-precedence instance — a record exposing
the identifier `39161` yields the template URL with `evid=39161` even though
`html_content` contains a different, quoted `viewEvent(999)`. -/
theorem claim5_witness :
    extract_event_url (Json.str "39161") c5whc = urlTemplate ++ "39161" :=
  claim5_amended.1 (Json.str "39161") c5whc rfl

/-! Claim C6. -/

/-- Claim C6 as stated is false on whitespace-trimming: for
`</a>Austin <br />UNITED STATES` the text immediately following the `</a>`
close-tag and preceding the marker is `Austin ` (trailing space), but the
source applies `.strip()`, so the location field is `Austin`. -/
theorem claim6_cex :
    c6hc = chars "</a>" ++ chars "Austin " ++ chars "<br />UNITED STATES" ∧
    searchAux matchLoc1 c6hc = some (chars "Austin ") ∧
    extract_location c6hc = "Austin" ∧
    ("Austin" : String) ≠ "Austin " := by
  exact ⟨rfl, rfl, rfl, by decide⟩

theorem matchLoc1_sound {s t : List Char} (h : matchLoc1 s = some t) :
    ∃ W B, s = chars "</a>" ++ (t ++ (chars "<br" ++ (W ++ gtC ::
        (chars "UNITED STATES" ++ B)))) ∧
      t ≠ [] ∧ (∀ c ∈ t, (c != ltC) = true) ∧ (∀ c ∈ W, (c != gtC) = true) := by
  unfold matchLoc1 at h
  cases hd : dropPre (chars "</a>") s with
  | none =>
    rw [hd] at h
    simp at h
  | some r1 =>
    rw [hd] at h
    dsimp only at h
    by_cases he : (r1.takeWhile (· != ltC)).isEmpty
    · rw [if_pos he] at h
      simp at h
    · rw [if_neg he] at h
      cases hbr : dropPre (chars "<br") (r1.dropWhile (· != ltC)) with
      | none =>
        rw [hbr] at h
        simp at h
      | some r3 =>
        rw [hbr] at h
        dsimp only at h
        cases hgw : r3.dropWhile (· != gtC) with
        | nil =>
          rw [hgw] at h
          simp at h
        | cons g r5 =>
          rw [hgw] at h
          dsimp only at h
          cases hus : dropPre (chars "UNITED STATES") r5 with
          | none =>
            rw [hus] at h
            simp at h
          | some r6 =>
            rw [hus] at h
            injection h with h1
            have hg : g = gtC := by
              have := dropWhile_head_false hgw
              simpa using this
            have hr3 : r3 = r3.takeWhile (· != gtC) ++ (gtC :: (chars "UNITED STATES" ++ r6)) := by
              conv_lhs => rw [← List.takeWhile_append_dropWhile (p := (· != gtC)) (l := r3)]
              rw [hgw, hg, dropPre_eq_some.mp hus]
            have hr1 : r1 = t ++ (chars "<br" ++ (r3.takeWhile (· != gtC) ++
                (gtC :: (chars "UNITED STATES" ++ r6)))) := by
              conv_lhs => rw [← List.takeWhile_append_dropWhile (p := (· != ltC)) (l := r1)]
              rw [h1, dropPre_eq_some.mp hbr]
              exact congrArg (fun x => t ++ (chars "<br" ++ x)) hr3
            refine ⟨r3.takeWhile (· != gtC), r6, ?_, ?_, ?_, ?_⟩
            · rw [dropPre_eq_some.mp hd]
              exact congrArg (chars "</a>" ++ ·) hr1
            · rw [← h1]
              simpa [List.isEmpty_iff] using he
            · intro c hcm
              rw [← h1] at hcm
              exact List.mem_takeWhile_imp (p := (· != ltC)) (l := r1) hcm
            · intro c hcm
              exact List.mem_takeWhile_imp (p := (· != gtC)) (l := r3) hcm

theorem matchLoc1_complete {t W B : List Char} (ht : t ≠ [])
    (htl : ∀ c ∈ t, (c != ltC) = true) (hw : ∀ c ∈ W, (c != gtC) = true) :
    matchLoc1 (chars "</a>" ++ (t ++ (chars "<br" ++ (W ++ gtC ::
      (chars "UNITED STATES" ++ B))))) = some t := by
  unfold matchLoc1
  rw [dropPre_refl]
  dsimp only
  have hu1 : ∀ c ∈ (chars "<br" ++ (W ++ gtC :: (chars "UNITED STATES" ++ B))).take 1,
      (c != ltC) = false := by
    intro c hc
    rw [show (chars "<br" ++ (W ++ gtC :: (chars "UNITED STATES" ++ B))).take 1 = [ltC]
      from rfl] at hc
    simp at hc
    rw [hc]
    rfl
  obtain ⟨htw, hdw⟩ := takeWhile_app (P := (· != ltC)) htl
    (chars "<br" ++ (W ++ gtC :: (chars "UNITED STATES" ++ B))) hu1
  rw [htw, hdw]
  rw [if_neg (by simpa [List.isEmpty_iff] using ht)]
  rw [dropPre_refl]
  dsimp only
  have hu2 : ∀ c ∈ (gtC :: (chars "UNITED STATES" ++ B)).take 1, (c != gtC) = false := by
    intro c hc
    rw [show (gtC :: (chars "UNITED STATES" ++ B)).take 1 = [gtC] from rfl] at hc
    simp at hc
    rw [hc]
    rfl
  obtain ⟨htw2, hdw2⟩ := takeWhile_app (P := (· != gtC)) hw
    (gtC :: (chars "UNITED STATES" ++ B)) hu2
  rw [hdw2]
  dsimp only
  rw [dropPre_refl]

theorem loc2Try_sound {r cap : List Char} : ∀ {k : Nat}, loc2Try r k = some cap →
    ∃ k2, 1 ≤ k2 ∧ k2 ≤ k ∧ loc2Check (r.drop k2) = true ∧
      cap = r.take k2 ++ loc2Cap (r.drop k2) := by
  intro k
  induction k with
  | zero =>
    intro h
    simp [loc2Try] at h
  | succ k ih =>
    intro h
    rw [loc2Try] at h
    by_cases hc : loc2Check (r.drop (k + 1))
    · rw [if_pos hc] at h
      injection h with h1
      exact ⟨k + 1, by omega, Nat.le_refl _, hc, h1.symm⟩
    · rw [if_neg hc] at h
      obtain ⟨k2, hk1, hk2, hchk, hcap⟩ := ih h
      exact ⟨k2, hk1, by omega, hchk, hcap⟩

theorem take_of_le_takeWhile {P : Char → Bool} : ∀ (l : List Char) (k : Nat),
    k ≤ (l.takeWhile P).length → ∀ c ∈ l.take k, P c = true := by
  intro l
  induction l with
  | nil =>
    intro k hk c hc
    simp at hc
  | cons a as ih =>
    intro k hk c hc
    cases k with
    | zero => simp at hc
    | succ k =>
      rw [List.takeWhile_cons] at hk
      cases hp : P a with
      | false =>
        rw [hp] at hk
        simp at hk
      | true =>
        rw [hp] at hk
        simp at hk
        rw [List.take_succ_cons] at hc
        rcases List.mem_cons.mp hc with hca | hcm
        · rw [hca]
          exact hp
        · exact ih k (by omega) c hcm

theorem matchLoc2_sound {s t : List Char} (h : matchLoc2 s = some t) :
    ∃ B P c1 c2 W D, s = chars "</a>" ++ (t ++ (chars "<br" ++ B)) ∧
      t = P ++ c1 :: c2 :: (W ++ D) ∧ P ≠ [] ∧ (∀ c ∈ P, loc2Cls c = true) ∧
      c1.isUpper = true ∧ c2.isUpper = true ∧ (∀ c ∈ W, isPySpace c = true) ∧
      (∀ c ∈ D, c.isDigit = true) := by
  unfold matchLoc2 at h
  cases hd : dropPre (chars "</a>") s with
  | none =>
    rw [hd] at h
    simp at h
  | some r =>
    rw [hd] at h
    obtain ⟨k2, hk1, hk2, hchk, hcap⟩ := loc2Try_sound h
    cases hdr : r.drop k2 with
    | nil =>
      rw [hdr] at hchk
      simp [loc2Check] at hchk
    | cons c1 rest1 =>
      cases rest1 with
      | nil =>
        rw [hdr] at hchk
        simp [loc2Check] at hchk
      | cons c2 rr =>
        rw [hdr] at hchk hcap
        unfold loc2Check at hchk
        simp only [Bool.and_eq_true, Option.isSome_iff_exists] at hchk
        obtain ⟨⟨hu1, hu2⟩, Btail, hbr⟩ := hchk
        have hmid : (rr.dropWhile isPySpace).dropWhile Char.isDigit = chars "<br" ++ Btail :=
          dropPre_eq_some.mp hbr
        have hcap2 : t = r.take k2 ++ (c1 :: c2 :: (rr.takeWhile isPySpace ++
            (rr.dropWhile isPySpace).takeWhile Char.isDigit)) := hcap
        have hrr : rr = rr.takeWhile isPySpace ++
            ((rr.dropWhile isPySpace).takeWhile Char.isDigit ++ (chars "<br" ++ Btail)) := by
          conv_lhs => rw [← List.takeWhile_append_dropWhile (p := isPySpace) (l := rr)]
          congr 1
          conv_lhs => rw [← List.takeWhile_append_dropWhile (p := Char.isDigit)
            (l := rr.dropWhile isPySpace)]
          rw [hmid]
        have hbig : r = r.take k2 ++ (c1 :: c2 :: (rr.takeWhile isPySpace ++
            ((rr.dropWhile isPySpace).takeWhile Char.isDigit ++ (chars "<br" ++ Btail)))) := by
          conv_lhs => rw [← List.take_append_drop k2 r]
          rw [hdr]
          exact congrArg (fun x => r.take k2 ++ (c1 :: c2 :: x)) hrr
        refine ⟨Btail, r.take k2, c1, c2, rr.takeWhile isPySpace,
          (rr.dropWhile isPySpace).takeWhile Char.isDigit, ?_, hcap2, ?_, ?_, hu1, hu2, ?_, ?_⟩
        · rw [dropPre_eq_some.mp hd, hcap2]
          nth_rewrite 1 [hbig]
          simp [List.append_assoc]
        · have hlen : 1 ≤ (r.drop k2).length := by
            rw [hdr]
            simp
          have hlen2 : (r.take k2).length = k2 := by
            rw [List.length_take]
            have := r.length_drop k2
            omega
          intro hnil
          rw [hnil] at hlen2
          simp at hlen2
          omega
        · exact fun c hc => take_of_le_takeWhile r k2 hk2 c hc
        · exact fun c hc => List.mem_takeWhile_imp (p := isPySpace) (l := rr) hc
        · exact fun c hc => List.mem_takeWhile_imp (p := Char.isDigit)
            (l := rr.dropWhile isPySpace) hc

/-- Claim C6, amended ("stripped" added, as the counterexample forces): the
location is the `.strip()`ed capture of the primary pattern when it matches —
that capture being a nonempty `<`-free text sitting immediately between a
`</a>` close-tag and a `<br ...>UNITED STATES` marker (being `<`-free, no
other `</a>` lies between it and its marker, so the anchor is the last
close-tag before that marker), and the pattern does match whenever such a
configuration exists; otherwise the stripped capture of the looser pattern
(nonempty run of letters/whitespace/commas, two uppercase letters, optional
whitespace then digits, ending right before `<br`); and the empty string when
neither pattern matches. -/
theorem claim6_amended :
    (∀ hc t, searchAux matchLoc1 hc = some t →
      extract_location hc = pyStrip t ∧
      ∃ A W B, hc = A ++ chars "</a>" ++ t ++ chars "<br" ++ W ++ gtC ::
          (chars "UNITED STATES" ++ B) ∧
        t ≠ [] ∧ (∀ c ∈ t, (c != ltC) = true) ∧ (∀ c ∈ W, (c != gtC) = true)) ∧
    (∀ A t W B, t ≠ [] → (∀ c ∈ t, (c != ltC) = true) → (∀ c ∈ W, (c != gtC) = true) →
      ∃ t2, searchAux matchLoc1 (A ++ chars "</a>" ++ t ++ chars "<br" ++ W ++ gtC ::
        (chars "UNITED STATES" ++ B)) = some t2) ∧
    (∀ hc t, searchAux matchLoc1 hc = none → searchAux matchLoc2 hc = some t →
      extract_location hc = pyStrip t ∧
      ∃ A B P c1 c2 W D, hc = A ++ chars "</a>" ++ t ++ chars "<br" ++ B ∧
        t = P ++ c1 :: c2 :: (W ++ D) ∧ P ≠ [] ∧ (∀ c ∈ P, loc2Cls c = true) ∧
        c1.isUpper = true ∧ c2.isUpper = true ∧ (∀ c ∈ W, isPySpace c = true) ∧
        (∀ c ∈ D, c.isDigit = true)) ∧
    (∀ hc, searchAux matchLoc1 hc = none → searchAux matchLoc2 hc = none →
      extract_location hc = "") := by
  refine ⟨?_, ?_, ?_, ?_⟩
  · intro hc t h
    refine ⟨by unfold extract_location; rw [h], ?_⟩
    obtain ⟨A, B0, hAB, hB⟩ := searchAux_eq_some h
    obtain ⟨W, B, hdec, hne, hlt, hgt⟩ := matchLoc1_sound hB
    refine ⟨A, W, B, ?_, hne, hlt, hgt⟩
    rw [hAB, hdec]
    simp [List.append_assoc]
  · intro A t W B ht htl hw
    have hm := matchLoc1_complete (B := B) ht htl hw
    obtain ⟨t2, ht2⟩ := searchAux_app_some A hm
    refine ⟨t2, ?_⟩
    rw [show A ++ chars "</a>" ++ t ++ chars "<br" ++ W ++ gtC ::
        (chars "UNITED STATES" ++ B) = A ++ (chars "</a>" ++ (t ++ (chars "<br" ++
        (W ++ gtC :: (chars "UNITED STATES" ++ B))))) by simp [List.append_assoc]]
    exact ht2
  · intro hc t h1 h2
    refine ⟨by unfold extract_location; rw [h1, h2], ?_⟩
    obtain ⟨A, B0, hAB, hB⟩ := searchAux_eq_some h2
    obtain ⟨B, P, c1, c2, W, D, hdec, hts, hPne, hPcls, hu1, hu2, hWs, hDd⟩ := matchLoc2_sound hB
    refine ⟨A, B, P, c1, c2, W, D, ?_, hts, hPne, hPcls, hu1, hu2, hWs, hDd⟩
    rw [hAB, hdec]
    simp [List.append_assoc]
  · intro hc h1 h2
    unfold extract_location
    rw [h1, h2]

/-- Witness for C6: the amended theorem applied at a concrete address
fragment. -/
theorem claim6_witness :
    extract_location (chars "</a>Henrico, VA 23228<br />UNITED STATES") = "Henrico, VA 23228" :=
  (claim6_amended.1 (chars "</a>Henrico, VA 23228<br />UNITED STATES")
    (chars "Henrico, VA 23228") rfl).1

end KCBS
